import Mathlib

/-!
Shallow embedding of `make_docs.py`.

The script does, in order:
* `DOCS_DIR.mkdir(parents=True, exist_ok=True)` — ensure the destination directory exists;
* `for file in (... / "target/release").iterdir():` — enumerate the source directory
  (raising `FileNotFoundError` when it does not exist), and for each entry
  `file.rename(DOCS_DIR / file.name)` — move it into the destination — followed by
  `link = html.escape(file.name)` and appending the list item to `index_content`;
* append the closing tag and `(DOCS_DIR / "index.html").write_text(index_content, "utf-8")`.

Python strings are modelled as `List Char`.  A directory is an association list of
entries (name and content); `Option` distinguishes a missing directory from an empty
one.  Fallible filesystem operations (directory creation, each rename, the final
write) are driven by an explicit fault description, `none`/`false` meaning the
operation succeeds; an uncaught Python exception is modelled by the run returning
`some` error together with the filesystem state at that point.
-/

namespace MakeDocs

/-- Python strings are modelled as lists of characters. -/
abbrev Chars := List Char

/-- The apostrophe character U+0027. -/
def apos : Char := Char.ofNat 39

/-- Python `s.replace(old, new)` restricted to a single-character pattern `old`,
which is the only way `make_docs.py`'s escaping uses it: every occurrence of the
character `c` in `s` is replaced by `r`, left to right. -/
def pyReplaceChar (s : Chars) (c : Char) (r : Chars) : Chars :=
  match s with
  | [] => []
  | x :: xs => (if x = c then r else [x]) ++ pyReplaceChar xs c r

/-- CPython `html.escape(s)` with the default `quote=True`: five successive
`str.replace` calls, in the order of the CPython source. -/
def htmlEscape (s : Chars) : Chars :=
  pyReplaceChar (pyReplaceChar (pyReplaceChar (pyReplaceChar (pyReplaceChar s
    '&' "&amp;".toList) '<' "&lt;".toList) '>' "&gt;".toList) '"' "&quot;".toList)
    apos "&#x27;".toList

/-- Per-character description of the escaping: each of the five special characters
goes to its HTML entity, every other character is kept. -/
def escapeChar (c : Char) : Chars :=
  if c = '&' then "&amp;".toList
  else if c = '<' then "&lt;".toList
  else if c = '>' then "&gt;".toList
  else if c = '"' then "&quot;".toList
  else if c = apos then "&#x27;".toList
  else [c]

/-- Character-by-character escaping of a whole string. -/
def escL : Chars → Chars
  | [] => []
  | c :: s => escapeChar c ++ escL s

/-- One filesystem object enumerated from a directory: its name and its content. -/
structure Entry where
  name : Chars
  content : Chars
deriving DecidableEq

/-- The filesystem fragment the script touches: the source directory
`target/release` and the destination directory `docs`.  `none` means the
directory does not exist. -/
structure FS where
  src : Option (List Entry)
  dest : Option (List Entry)
deriving DecidableEq

/-- Errors the script can die with (uncaught Python exceptions). -/
inductive Err where
  | mkdirFailed
  | fileNotFound
  | moveFailed (name : Chars)
  | writeFailed
deriving DecidableEq

/-- Fault description for the fallible filesystem operations: whether the initial
`mkdir` fails, which renames fail (by entry name), and whether the final
`write_text` fails. -/
structure Faults where
  mkdirFails : Bool
  moveFails : Chars → Bool
  writeFails : Bool

/-- The fault-free execution environment. -/
def noFaults : Faults := ⟨false, fun _ => false, false⟩

/-- Placing an entry into a directory listing, as `Path.rename` onto a target
path does: an existing entry of the same name is replaced, otherwise the entry
is appended. -/
def setEntry (d : List Entry) (e : Entry) : List Entry :=
  if d.any (fun x => decide (x.name = e.name)) then
    d.map (fun x => if x.name = e.name then e else x)
  else d ++ [e]

/-- Content of the entry of a directory listing with the given name, if any. -/
def lookupE : List Entry → Chars → Option Chars
  | [], _ => none
  | e :: d, n => if e.name = n then some e.content else lookupE d n

/-- Line 5 of the script, `DOCS_DIR.mkdir(parents=True, exist_ok=True)`: create
the destination directory if it is absent; an existing directory is left as is
and raises no error. -/
def ensureDest (fs : FS) : FS := ⟨fs.src, some (fs.dest.getD [])⟩

/-- The opening fragment `index_content` starts from: the heading and the
opening list tag, each followed by a newline (the triple-quoted literal of the
script). -/
def indexHeader : Chars := "<h1>Binary builds</h1>\n<ul>\n".toList

/-- The text preceding the escaped name in the f-string
`<li><a href="{link}">{link}</a></li>`. -/
def aHrefPre : Chars := "<li><a href=\"".toList

/-- The text between the two occurrences of the escaped name in the f-string. -/
def midQuote : Chars := "\">".toList

/-- The text after the second occurrence of the escaped name in the f-string,
including the trailing newline. -/
def liClose : Chars := "</a></li>\n".toList

/-- The closing fragment appended after the loop. -/
def indexFooter : Chars := "</ul>\n".toList

/-- An opening list-item tag. -/
def liTag : Chars := "<li>".toList

/-- The list item the loop appends for an entry name: the f-string
`<li><a href="{link}">{link}</a></li>` plus newline, with
`link = html.escape(name)` inserted in both the `href` attribute and the text. -/
def itemOf (name : Chars) : Chars :=
  aHrefPre ++ htmlEscape name ++ midQuote ++ htmlEscape name ++ liClose

/-- Concatenation of the images of a function over a list (used for the
accumulated list items). -/
def catMap (f : Chars → Chars) : List Chars → Chars
  | [] => []
  | n :: ns => f n ++ catMap f ns

/-- The full text of the generated index document for a list of entry names, in
enumeration order. -/
def indexContent (names : List Chars) : Chars :=
  indexHeader ++ catMap itemOf names ++ indexFooter

/-- State after running the enumerate-and-relocate loop: what remains in the
source directory, the destination listing, the accumulated `index_content`,
and the error that aborted the loop, if any. -/
structure LoopOut where
  srcRem : List Entry
  dest : List Entry
  acc : Chars
  err : Option Err
deriving DecidableEq

/-- The `for file in ....iterdir():` loop of the script: each entry is renamed
into the destination and its list item is appended to the accumulator; a failing
rename aborts the loop with the entry (and all later ones) still in the source
directory. -/
def processEntries (f : Faults) : List Entry → List Entry → Chars → LoopOut
  | [], d, acc => ⟨[], d, acc, none⟩
  | e :: rest, d, acc =>
    if f.moveFails e.name then ⟨e :: rest, d, acc, some (Err.moveFailed e.name)⟩
    else processEntries f rest (setEntry d e) (acc ++ itemOf e.name)

/-- The final `write_text` call: target file name, text, and the encoding
argument passed by the script. -/
structure WriteCall where
  fileName : Chars
  text : Chars
  encoding : Chars
deriving DecidableEq

/-- The script's final statement,
`(DOCS_DIR / "index.html").write_text(index_content, "utf-8")`. -/
def indexWrite (text : Chars) : WriteCall :=
  ⟨"index.html".toList, text, "utf-8".toList⟩

/-- Outcome of a run: the final filesystem state and the uncaught exception,
if any. -/
structure Result where
  fs : FS
  err : Option Err
deriving DecidableEq

/-- The whole script, line by line: ensure the destination directory, enumerate
the source directory (failing with `FileNotFoundError` when it is missing),
rename each entry into the destination while accumulating the list items, then
write the index document over `docs/index.html`. -/
def runScript (f : Faults) (fs : FS) : Result :=
  if f.mkdirFails then ⟨fs, some Err.mkdirFailed⟩ else
  let fs1 := ensureDest fs
  match fs1.src with
  | none => ⟨fs1, some Err.fileNotFound⟩
  | some entries =>
    let out := processEntries f entries (fs1.dest.getD []) indexHeader
    match out.err with
    | some e => ⟨⟨some out.srcRem, some out.dest⟩, some e⟩
    | none =>
      let w := indexWrite (out.acc ++ indexFooter)
      if f.writeFails then ⟨⟨some out.srcRem, some out.dest⟩, some Err.writeFailed⟩
      else ⟨⟨some out.srcRem, some (setEntry out.dest ⟨w.fileName, w.text⟩)⟩, none⟩

/-- Boolean prefix test on character lists (used by the occurrence counter). -/
def isPfx : Chars → Chars → Bool
  | [], _ => true
  | _ :: _, [] => false
  | a :: as, b :: bs => a == b && isPfx as bs

/-- Decoder for the escaped alphabet: each entity is mapped back to its
character.  Only used to prove that the escaping is injective. -/
def unescape : Chars → Chars
  | [] => []
  | c :: s =>
    if c = '&' then
      match s with
      | 'a' :: 'm' :: 'p' :: ';' :: t => '&' :: unescape t
      | 'l' :: 't' :: ';' :: t => '<' :: unescape t
      | 'g' :: 't' :: ';' :: t => '>' :: unescape t
      | 'q' :: 'u' :: 'o' :: 't' :: ';' :: t => '"' :: unescape t
      | '#' :: 'x' :: '2' :: '7' :: ';' :: t => apos :: unescape t
      | t => '&' :: unescape t
    else c :: unescape s

/-- Number of positions of a string at which `pat` occurs as a contiguous
substring. -/
def countOccs (pat : Chars) : Chars → Nat
  | [] => 0
  | c :: s => (if isPfx pat (c :: s) then 1 else 0) + countOccs pat s

/-- Number of positions inside the block `b` at which `pat` occurs in
`b ++ rest` (an occurrence may run over into `rest`). -/
def countOccsIn (pat : Chars) : Chars → Chars → Nat
  | [], _ => 0
  | c :: b, rest => (if isPfx pat (c :: (b ++ rest)) then 1 else 0) + countOccsIn pat b rest

/-- Decidable scanner: no suffix of the block agrees with the pattern prefix `t`
on their common length.  When it returns `true`, no occurrence of any pattern
starting with `t` can begin inside the block, whatever follows it. -/
def freeScan (t : Chars) : Chars → Bool
  | [] => true
  | c :: b =>
    (!(decide ((c :: b).take (min (b.length + 1) t.length) =
        t.take (min (b.length + 1) t.length)))) && freeScan t b

/-- The tail of `aHrefPre` after its leading opening bracket. -/
def pre13tail : Chars := "li><a href=\"".toList

/-- Names of the entries of a directory listing. -/
def namesOf (d : List Entry) : List Chars := d.map Entry.name

/-- Fault description in which exactly the rename of the entry named `b`
fails. -/
def failB : Faults := ⟨false, fun n => decide (n = "b".toList), false⟩

theorem isPfx_iff : ∀ a b : Chars, isPfx a b = true ↔ ∃ t, a ++ t = b
  | [], b => by simp [isPfx]
  | a :: as, [] => by simp [isPfx]
  | a :: as, b :: bs => by
    simp only [isPfx, Bool.and_eq_true, beq_iff_eq, List.cons_append, List.cons.injEq]
    rw [isPfx_iff as bs]
    constructor
    · rintro ⟨rfl, t, rfl⟩
      exact ⟨t, rfl, rfl⟩
    · rintro ⟨t, rfl, h⟩
      exact ⟨rfl, t, h⟩

theorem isPfx_append_self (a t : Chars) : isPfx a (a ++ t) = true :=
  (isPfx_iff a (a ++ t)).2 ⟨t, rfl⟩

theorem pyReplaceChar_append (a b : Chars) (c : Char) (r : Chars) :
    pyReplaceChar (a ++ b) c r = pyReplaceChar a c r ++ pyReplaceChar b c r := by
  induction a with
  | nil => rfl
  | cons x xs ih => simp [pyReplaceChar, ih, List.append_assoc]

theorem htmlEscape_append (a b : Chars) :
    htmlEscape (a ++ b) = htmlEscape a ++ htmlEscape b := by
  simp [htmlEscape, pyReplaceChar_append]

theorem htmlEscape_single (c : Char) : htmlEscape [c] = escapeChar c := by
  by_cases h1 : c = '&'
  · subst h1; decide
  by_cases h2 : c = '<'
  · subst h2; decide
  by_cases h3 : c = '>'
  · subst h3; decide
  by_cases h4 : c = '"'
  · subst h4; decide
  by_cases h5 : c = apos
  · subst h5; decide
  simp [htmlEscape, pyReplaceChar, escapeChar, h1, h2, h3, h4, h5]

/-- The five sequential `str.replace` calls of `html.escape` amount to the
per-character substitution `escapeChar`. -/
theorem htmlEscape_eq : ∀ s : Chars, htmlEscape s = escL s
  | [] => by decide
  | c :: s => by
    have : (c :: s : Chars) = [c] ++ s := rfl
    rw [this, htmlEscape_append, htmlEscape_single, htmlEscape_eq s]
    rfl

theorem escapeChar_mem (c : Char) : ∀ x ∈ escapeChar c, x ≠ '<' ∧ x ≠ '"' := by
  by_cases h1 : c = '&'
  · subst h1; decide
  by_cases h2 : c = '<'
  · subst h2; decide
  by_cases h3 : c = '>'
  · subst h3; decide
  by_cases h4 : c = '"'
  · subst h4; decide
  by_cases h5 : c = apos
  · subst h5; decide
  intro x hx
  simp [escapeChar, h1, h2, h3, h4, h5] at hx
  subst hx
  exact ⟨h2, h4⟩

theorem escL_mem : ∀ s : Chars, ∀ x ∈ escL s, x ≠ '<' ∧ x ≠ '"'
  | [] => by simp [escL]
  | c :: s => by
    intro x hx
    rw [escL, List.mem_append] at hx
    rcases hx with hx | hx
    · exact escapeChar_mem c x hx
    · exact escL_mem s x hx

theorem unescape_amp (L : Chars) :
    unescape ('&' :: 'a' :: 'm' :: 'p' :: ';' :: L) = '&' :: unescape L := rfl

theorem unescape_lt (L : Chars) :
    unescape ('&' :: 'l' :: 't' :: ';' :: L) = '<' :: unescape L := rfl

theorem unescape_gt (L : Chars) :
    unescape ('&' :: 'g' :: 't' :: ';' :: L) = '>' :: unescape L := rfl

theorem unescape_quot (L : Chars) :
    unescape ('&' :: 'q' :: 'u' :: 'o' :: 't' :: ';' :: L) = '"' :: unescape L := rfl

theorem unescape_x27 (L : Chars) :
    unescape ('&' :: '#' :: 'x' :: '2' :: '7' :: ';' :: L) = apos :: unescape L := rfl

set_option maxHeartbeats 2000000 in
theorem unescape_cons_of_ne (c : Char) (L : Chars) (hc : c ≠ '&') :
    unescape (c :: L) = c :: unescape L := by
  rw [unescape.eq_def]
  simp [hc]

/-- The decoder undoes the per-character escaping. -/
theorem unescape_escL : ∀ s : Chars, unescape (escL s) = s
  | [] => rfl
  | c :: s => by
    rw [escL]
    by_cases h1 : c = '&'
    · subst h1
      have e : escapeChar '&' ++ escL s = '&' :: 'a' :: 'm' :: 'p' :: ';' :: escL s := rfl
      rw [e, unescape_amp, unescape_escL s]
    by_cases h2 : c = '<'
    · subst h2
      have e : escapeChar '<' ++ escL s = '&' :: 'l' :: 't' :: ';' :: escL s := rfl
      rw [e, unescape_lt, unescape_escL s]
    by_cases h3 : c = '>'
    · subst h3
      have e : escapeChar '>' ++ escL s = '&' :: 'g' :: 't' :: ';' :: escL s := rfl
      rw [e, unescape_gt, unescape_escL s]
    by_cases h4 : c = '"'
    · subst h4
      have e : escapeChar '"' ++ escL s = '&' :: 'q' :: 'u' :: 'o' :: 't' :: ';' :: escL s := rfl
      rw [e, unescape_quot, unescape_escL s]
    by_cases h5 : c = apos
    · subst h5
      have e : escapeChar apos ++ escL s = '&' :: '#' :: 'x' :: '2' :: '7' :: ';' :: escL s := rfl
      rw [e, unescape_x27, unescape_escL s]
    have e : escapeChar c ++ escL s = c :: escL s := by
      simp [escapeChar, h1, h2, h3, h4, h5]
    rw [e, unescape_cons_of_ne c _ h1, unescape_escL s]

/-- The escaping is injective: distinct names produce distinct escaped names. -/
theorem escL_inj {a b : Chars} (h : escL a = escL b) : a = b := by
  have := congrArg unescape h
  rwa [unescape_escL, unescape_escL] at this

theorem htmlEscape_inj {a b : Chars} (h : htmlEscape a = htmlEscape b) : a = b := by
  rw [htmlEscape_eq, htmlEscape_eq] at h
  exact escL_inj h

theorem countOccs_append (pat b rest : Chars) :
    countOccs pat (b ++ rest) = countOccsIn pat b rest + countOccs pat rest := by
  induction b with
  | nil => simp [countOccsIn]
  | cons c b ih => simp [countOccs, countOccsIn, ih, Nat.add_assoc]

theorem countOccsIn_append (pat a b rest : Chars) :
    countOccsIn pat (a ++ b) rest = countOccsIn pat a (b ++ rest) + countOccsIn pat b rest := by
  induction a with
  | nil => simp [countOccsIn]
  | cons c a ih => simp [countOccsIn, ih, List.append_assoc, Nat.add_assoc]

theorem countOccs_eq_in_nil (pat b : Chars) : countOccs pat b = countOccsIn pat b [] := by
  induction b with
  | nil => rfl
  | cons c b ih => simp [countOccs, countOccsIn, ih]

theorem take_len_le {pat t : Chars} (ht : pat.take t.length = t) : t.length ≤ pat.length := by
  have h := congrArg List.length ht
  rw [List.length_take] at h
  rcases Nat.le_total t.length pat.length with h' | h'
  · exact h'
  · rw [Nat.min_eq_right h'] at h
    omega

theorem take_take_of_prefix {pat t : Chars} (ht : pat.take t.length = t) (k : Nat)
    (hk : k ≤ t.length) : pat.take k = t.take k := by
  rw [← ht, List.take_take, Nat.min_eq_left hk]

theorem freeScan_zero (pat t b rest : Chars) (ht : pat.take t.length = t)
    (hb : freeScan t b = true) : countOccsIn pat b rest = 0 := by
  induction b with
  | nil => rfl
  | cons c b ih =>
    rw [freeScan] at hb
    rw [Bool.and_eq_true] at hb
    obtain ⟨h1, h2⟩ := hb
    rw [Bool.not_eq_eq_eq_not, Bool.not_true, decide_eq_false_iff_not] at h1
    have hind : isPfx pat (c :: (b ++ rest)) = false := by
      rcases hEq : isPfx pat (c :: (b ++ rest)) with _ | _
      · rfl
      exfalso
      obtain ⟨u, hu⟩ := (isPfx_iff _ _).1 hEq
      have htlen : t.length ≤ pat.length := take_len_le ht
      have hkp : min (b.length + 1) t.length ≤ pat.length :=
        le_trans (Nat.min_le_right _ _) htlen
      have hkr : min (b.length + 1) t.length ≤ (c :: b).length := by
        simp [Nat.min_le_left]
      have e2 : (c :: (b ++ rest)).take (min (b.length + 1) t.length) =
          pat.take (min (b.length + 1) t.length) := by
        rw [← hu]
        exact List.take_append_of_le_length hkp
      have e1 : (c :: (b ++ rest)).take (min (b.length + 1) t.length) =
          (c :: b).take (min (b.length + 1) t.length) := by
        have : (c :: (b ++ rest)) = (c :: b) ++ rest := rfl
        rw [this]
        exact List.take_append_of_le_length hkr
      have e3 : pat.take (min (b.length + 1) t.length) =
          t.take (min (b.length + 1) t.length) :=
        take_take_of_prefix ht _ (Nat.min_le_right _ _)
      exact h1 (by rw [← e1, e2, e3])
    rw [countOccsIn, hind]
    simp [ih h2]

theorem countOccsIn_no_head (pat : Chars) (c0 : Char) (p : Chars) (hp : pat = c0 :: p)
    (b rest : Chars) (hb : ∀ x ∈ b, x ≠ c0) : countOccsIn pat b rest = 0 := by
  induction b with
  | nil => rfl
  | cons c b ih =>
    have hc : c ≠ c0 := hb c (List.mem_cons_self c b)
    have hind : isPfx pat (c :: (b ++ rest)) = false := by
      rw [hp, isPfx]
      have : (c0 == c) = false := by
        rw [beq_eq_false_iff_ne]
        exact fun h => hc h.symm
      rw [this, Bool.false_and]
    rw [countOccsIn, hind]
    simp
    exact ih (fun x hx => hb x (List.mem_cons_of_mem c hx))

theorem quote_delim : ∀ a b s t : Chars, (∀ x ∈ a, x ≠ '"') → (∀ x ∈ b, x ≠ '"') →
    (∃ u, (a ++ '"' :: s) ++ u = b ++ '"' :: t) → a = b
  | [], [], _, _, _, _, _ => rfl
  | [], d :: b, s, t, _, hb, ⟨u, hu⟩ => by
    exfalso
    simp only [List.nil_append, List.cons_append, List.cons.injEq] at hu
    exact hb d (List.mem_cons_self d b) hu.1.symm
  | c :: a, [], s, t, ha, _, ⟨u, hu⟩ => by
    exfalso
    simp only [List.nil_append, List.cons_append, List.cons.injEq] at hu
    exact ha c (List.mem_cons_self c a) hu.1
  | c :: a, d :: b, s, t, ha, hb, ⟨u, hu⟩ => by
    simp only [List.cons_append, List.cons.injEq] at hu
    have ht := quote_delim a b s t (fun x hx => ha x (List.mem_cons_of_mem c hx))
      (fun x hx => hb x (List.mem_cons_of_mem d hx))
      ⟨u, by simpa [List.append_assoc] using hu.2⟩
    rw [hu.1, ht]

theorem append_prefix_cancel {x a b : Chars} (h : ∃ u, (x ++ a) ++ u = x ++ b) :
    ∃ u, a ++ u = b := by
  obtain ⟨u, hu⟩ := h
  rw [List.append_assoc] at hu
  exact ⟨u, List.append_cancel_left hu⟩

theorem aHrefPre_eq : aHrefPre = '<' :: pre13tail := rfl

theorem midQuote_eq : midQuote = '"' :: '>' :: [] := rfl

theorem itemOf_decomp (n : Chars) : itemOf n =
    aHrefPre ++ (htmlEscape n ++ (midQuote ++ (htmlEscape n ++ liClose))) := by
  simp [itemOf, List.append_assoc]

theorem itemOf_take13 (n : Chars) : (itemOf n).take aHrefPre.length = aHrefPre := by
  rw [itemOf_decomp, List.take_append_of_le_length (Nat.le_refl _), List.take_length]

theorem itemOf_head (n : Chars) : ∃ p, itemOf n = '<' :: p := by
  rw [itemOf_decomp, aHrefPre_eq]
  exact ⟨_, rfl⟩

theorem htmlEscape_no_lt (n : Chars) : ∀ x ∈ htmlEscape n, x ≠ '<' := by
  rw [htmlEscape_eq]
  exact fun x hx => (escL_mem n x hx).1

theorem htmlEscape_no_quote (n : Chars) : ∀ x ∈ htmlEscape n, x ≠ '"' := by
  rw [htmlEscape_eq]
  exact fun x hx => (escL_mem n x hx).2

theorem countOccsIn_five (pat A B C D E rest : Chars) :
    countOccsIn pat (A ++ (B ++ (C ++ (D ++ E)))) rest =
      countOccsIn pat A (B ++ (C ++ (D ++ (E ++ rest)))) +
      (countOccsIn pat B (C ++ (D ++ (E ++ rest))) +
       (countOccsIn pat C (D ++ (E ++ rest)) +
        (countOccsIn pat D (E ++ rest) + countOccsIn pat E rest))) := by
  rw [countOccsIn_append, countOccsIn_append, countOccsIn_append, countOccsIn_append]
  simp [List.append_assoc]

theorem countOccsIn_aHrefPre (pat C1 : Chars) (hpat : pat.take aHrefPre.length = aHrefPre) :
    countOccsIn pat aHrefPre C1 = (if isPfx pat (aHrefPre ++ C1) then 1 else 0) := by
  rw [aHrefPre_eq, countOccsIn]
  have h0 : ('<' :: (pre13tail ++ C1)) = ('<' :: pre13tail) ++ C1 := rfl
  rw [h0, freeScan_zero pat aHrefPre pre13tail C1 hpat (by decide)]
  simp

theorem countOccsIn_item_li (kn rest : Chars) : countOccsIn liTag (itemOf kn) rest = 1 := by
  have hlt : liTag.take liTag.length = liTag := List.take_length liTag
  rw [itemOf_decomp kn, countOccsIn_five]
  rw [countOccsIn_no_head liTag '<' "li>".toList rfl _ _ (htmlEscape_no_lt kn)]
  rw [freeScan_zero liTag liTag midQuote _ hlt (by decide)]
  rw [countOccsIn_no_head liTag '<' "li>".toList rfl _ _ (htmlEscape_no_lt kn)]
  rw [freeScan_zero liTag liTag liClose _ hlt (by decide)]
  rw [aHrefPre_eq, countOccsIn]
  have h0 : ('<' :: (pre13tail ++ (htmlEscape kn ++ (midQuote ++ (htmlEscape kn ++ (liClose ++ rest)))))) =
      liTag ++ ("<a href=\"".toList ++ (htmlEscape kn ++ (midQuote ++ (htmlEscape kn ++ (liClose ++ rest))))) := rfl
  rw [h0, isPfx_append_self, freeScan_zero liTag liTag pre13tail _ hlt (by decide)]
  simp

theorem countOccsIn_item_item (en kn rest : Chars) :
    countOccsIn (itemOf en) (itemOf kn) rest = if en = kn then 1 else 0 := by
  obtain ⟨p, hp⟩ := itemOf_head en
  have h13 := itemOf_take13 en
  rw [itemOf_decomp kn, countOccsIn_five]
  rw [countOccsIn_aHrefPre _ _ h13]
  rw [countOccsIn_no_head (itemOf en) '<' p hp _ _ (htmlEscape_no_lt kn)]
  rw [freeScan_zero (itemOf en) aHrefPre midQuote _ h13 (by decide)]
  rw [countOccsIn_no_head (itemOf en) '<' p hp _ _ (htmlEscape_no_lt kn)]
  rw [freeScan_zero (itemOf en) aHrefPre liClose _ h13 (by decide)]
  by_cases h : en = kn
  · subst h
    have hT : isPfx (itemOf en)
        (aHrefPre ++ (htmlEscape en ++ (midQuote ++ (htmlEscape en ++ (liClose ++ rest))))) = true := by
      apply (isPfx_iff _ _).2
      exact ⟨rest, by rw [itemOf_decomp]; simp [List.append_assoc]⟩
    rw [hT]
    simp
  · have hF : isPfx (itemOf en)
        (aHrefPre ++ (htmlEscape kn ++ (midQuote ++ (htmlEscape kn ++ (liClose ++ rest))))) = false := by
      rcases hEq : isPfx (itemOf en)
        (aHrefPre ++ (htmlEscape kn ++ (midQuote ++ (htmlEscape kn ++ (liClose ++ rest))))) with _ | _
      · rfl
      exfalso
      obtain ⟨u, hu⟩ := (isPfx_iff _ _).1 hEq
      rw [itemOf_decomp en] at hu
      obtain ⟨v, hv⟩ := append_prefix_cancel ⟨u, hu⟩
      apply h
      apply htmlEscape_inj
      apply quote_delim (htmlEscape en) (htmlEscape kn)
        ('>' :: (htmlEscape en ++ liClose)) ('>' :: (htmlEscape kn ++ (liClose ++ rest)))
        (htmlEscape_no_quote en) (htmlEscape_no_quote kn)
      exact ⟨v, by simpa [midQuote_eq, List.append_assoc] using hv⟩
    rw [hF]
    simp [h]

theorem countOccs_tail_li : ∀ names : List Chars,
    countOccs liTag (catMap itemOf names ++ indexFooter) = names.length
  | [] => by
    rw [catMap, List.nil_append, countOccs_eq_in_nil]
    rw [freeScan_zero liTag liTag indexFooter [] (List.take_length liTag) (by decide)]
    rfl
  | k :: ns => by
    rw [catMap, List.append_assoc, countOccs_append, countOccsIn_item_li,
      countOccs_tail_li ns]
    simp [Nat.add_comm]

theorem countOccs_tail_item (en : Chars) : ∀ names : List Chars,
    countOccs (itemOf en) (catMap itemOf names ++ indexFooter) = names.count en
  | [] => by
    rw [catMap, List.nil_append, countOccs_eq_in_nil]
    rw [freeScan_zero (itemOf en) aHrefPre indexFooter [] (itemOf_take13 en) (by decide)]
    simp
  | k :: ns => by
    rw [catMap, List.append_assoc, countOccs_append, countOccsIn_item_item,
      countOccs_tail_item en ns, List.count_cons]
    by_cases h : en = k
    · simp [h, Nat.add_comm]
    · have : (k == en) = false := by
        rw [beq_eq_false_iff_ne]
        exact fun he => h he.symm
      simp [h, this]

/-- Number of `<li>` occurrences in the generated document: exactly one per
enumerated entry, none anywhere else. -/
theorem countOccs_content_li (names : List Chars) :
    countOccs liTag (indexContent names) = names.length := by
  rw [indexContent, List.append_assoc, countOccs_append]
  rw [freeScan_zero liTag liTag indexHeader _ (List.take_length liTag) (by decide)]
  rw [countOccs_tail_li]
  simp

/-- Number of occurrences of a given entry's full list item in the generated
document: the number of times that entry name occurs in the enumeration. -/
theorem countOccs_content_item (en : Chars) (names : List Chars) :
    countOccs (itemOf en) (indexContent names) = names.count en := by
  rw [indexContent, List.append_assoc, countOccs_append]
  rw [freeScan_zero (itemOf en) aHrefPre indexHeader _ (itemOf_take13 en) (by decide)]
  rw [countOccs_tail_item]
  simp

theorem any_iff_lookup (d : List Entry) (n : Chars) :
    d.any (fun x => decide (x.name = n)) = true ↔ ∃ c, lookupE d n = some c := by
  induction d with
  | nil => simp [lookupE]
  | cons x d ih =>
    by_cases hx : x.name = n
    · simp [lookupE, hx]
    · simp [lookupE, hx, ih]

theorem lookupE_map_subst (d : List Entry) (e : Entry) (m : Chars) :
    lookupE (d.map (fun x => if x.name = e.name then e else x)) m =
      if m = e.name then (lookupE d e.name).map (fun _ => e.content) else lookupE d m := by
  induction d with
  | nil => simp [lookupE]
  | cons x d ih =>
    by_cases hx : x.name = e.name
    · by_cases hm : m = e.name
      · simp [lookupE, hx, hm]
      · have h2 : e.name ≠ m := fun h => hm h.symm
        have h3 : x.name ≠ m := by rw [hx]; exact h2
        simp [lookupE, hx, h2, h3, ih, hm]
    · by_cases hxm : x.name = m
      · have hm : m ≠ e.name := by
          intro h
          exact hx (by rw [hxm, h])
        simp [lookupE, hx, hxm, hm]
      · simp [lookupE, hx, hxm, ih]

theorem lookupE_append_single (d : List Entry) (e : Entry) (m : Chars)
    (hd : ∀ x ∈ d, x.name ≠ e.name) :
    lookupE (d ++ [e]) m = if m = e.name then some e.content else lookupE d m := by
  induction d with
  | nil =>
    by_cases hm : m = e.name
    · simp [lookupE, hm]
    · have : e.name ≠ m := fun h => hm h.symm
      simp [lookupE, hm, this]
  | cons x d ih =>
    by_cases hxm : x.name = m
    · have hm : m ≠ e.name := by
        intro h
        exact hd x (List.mem_cons_self x d) (by rw [hxm, h])
      simp [lookupE, hxm, hm]
    · simp [lookupE, hxm, ih (fun y hy => hd y (List.mem_cons_of_mem x hy))]

/-- Looking up after placing an entry: the placed entry is found under its
name, every other name is unaffected. -/
theorem lookupE_set (d : List Entry) (e : Entry) (m : Chars) :
    lookupE (setEntry d e) m = if m = e.name then some e.content else lookupE d m := by
  rw [setEntry]
  by_cases hany : d.any (fun x => decide (x.name = e.name)) = true
  · obtain ⟨c, hc⟩ := (any_iff_lookup d e.name).1 hany
    rw [if_pos hany, lookupE_map_subst, hc]
    rfl
  · have hnm : ∀ x ∈ d, x.name ≠ e.name := by
      intro x hx h
      exact hany (List.any_eq_true.2 ⟨x, hx, by simp [h]⟩)
    rw [if_neg hany, lookupE_append_single d e m hnm]

theorem namesOf_set (d : List Entry) (e : Entry) (x : Chars) :
    x ∈ namesOf (setEntry d e) ↔ x ∈ namesOf d ∨ x = e.name := by
  rw [setEntry]
  by_cases hany : d.any (fun x => decide (x.name = e.name)) = true
  · obtain ⟨y, hy, hyn'⟩ := List.any_eq_true.1 hany
    have hyn : y.name = e.name := of_decide_eq_true hyn'
    rw [if_pos hany]
    simp only [namesOf, List.map_map, List.mem_map, Function.comp]
    constructor
    · rintro ⟨z, hz, hzx⟩
      by_cases hze : z.name = e.name
      · right
        rw [if_pos hze] at hzx
        exact hzx.symm
      · left
        exact ⟨z, hz, by rwa [if_neg hze] at hzx⟩
    · rintro (⟨z, hz, hzx⟩ | rfl)
      · refine ⟨z, hz, ?_⟩
        by_cases hze : z.name = e.name
        · rw [if_pos hze, ← hze]
          exact hzx
        · rw [if_neg hze]
          exact hzx
      · exact ⟨y, hy, by rw [if_pos hyn]⟩
  · rw [if_neg hany]
    simp [namesOf]

theorem lookupE_foldl_not_mem (l : List Entry) (d : List Entry) (m : Chars)
    (h : ∀ e ∈ l, e.name ≠ m) : lookupE (l.foldl setEntry d) m = lookupE d m := by
  induction l generalizing d with
  | nil => rfl
  | cons x l ih =>
    rw [List.foldl_cons, ih (setEntry d x) (fun y hy => h y (List.mem_cons_of_mem x hy))]
    rw [lookupE_set]
    exact if_neg (fun hm => h x (List.mem_cons_self x l) hm.symm)

theorem lookupE_foldl_mem (l : List Entry) (d : List Entry) (e : Entry)
    (hnodup : (namesOf l).Nodup) (he : e ∈ l) :
    lookupE (l.foldl setEntry d) e.name = some e.content := by
  induction l generalizing d with
  | nil => cases he
  | cons x l ih =>
    rw [List.foldl_cons]
    rcases List.mem_cons.1 he with rfl | he'
    · have hx : ∀ y ∈ l, y.name ≠ e.name := by
        intro y hy h
        have : e.name ∈ namesOf l := by
          rw [← h]
          exact List.mem_map_of_mem Entry.name hy
        exact (List.nodup_cons.1 hnodup).1 this
      rw [lookupE_foldl_not_mem l _ _ hx, lookupE_set, if_pos rfl]
    · exact ih (setEntry d x) (List.nodup_cons.1 hnodup).2 he'

theorem namesOf_foldl (l : List Entry) (d : List Entry) (x : Chars) :
    x ∈ namesOf (l.foldl setEntry d) ↔ x ∈ namesOf d ∨ x ∈ namesOf l := by
  induction l generalizing d with
  | nil => simp [namesOf]
  | cons y l ih =>
    rw [List.foldl_cons, ih, namesOf_set]
    simp [namesOf, or_assoc, or_comm, or_left_comm]

theorem processEntries_ok (f : Faults) : ∀ (l : List Entry) (d : List Entry) (acc : Chars),
    (∀ e ∈ l, f.moveFails e.name = false) →
    processEntries f l d acc = ⟨[], l.foldl setEntry d, acc ++ catMap itemOf (namesOf l), none⟩
  | [], d, acc, _ => by simp [processEntries, catMap, namesOf]
  | e :: l, d, acc, h => by
    rw [processEntries, h e (List.mem_cons_self e l)]
    rw [processEntries_ok f l (setEntry d e) (acc ++ itemOf e.name)
      (fun x hx => h x (List.mem_cons_of_mem e hx))]
    simp [namesOf, catMap, List.append_assoc]

theorem processEntries_fail (f : Faults) : ∀ (pre : List Entry) (e : Entry) (post : List Entry)
    (d : List Entry) (acc : Chars),
    (∀ x ∈ pre, f.moveFails x.name = false) → f.moveFails e.name = true →
    processEntries f (pre ++ e :: post) d acc =
      ⟨e :: post, pre.foldl setEntry d, acc ++ catMap itemOf (namesOf pre),
        some (Err.moveFailed e.name)⟩
  | [], e, post, d, acc, _, he => by simp [processEntries, he, catMap, namesOf]
  | x :: pre, e, post, d, acc, h, he => by
    rw [List.cons_append, processEntries, h x (List.mem_cons_self x pre)]
    rw [processEntries_fail f pre e post (setEntry d x) (acc ++ itemOf x.name)
      (fun y hy => h y (List.mem_cons_of_mem x hy)) he]
    simp [namesOf, catMap, List.append_assoc]

theorem runScript_mkdir_fail (f : Faults) (fs : FS) (hmk : f.mkdirFails = true) :
    runScript f fs = ⟨fs, some Err.mkdirFailed⟩ := by
  rw [runScript]
  simp [hmk]

theorem runScript_src_none (f : Faults) (fs : FS) (hmk : f.mkdirFails = false)
    (hsrc : fs.src = none) :
    runScript f fs = ⟨⟨none, some (fs.dest.getD [])⟩, some Err.fileNotFound⟩ := by
  rw [runScript]
  simp [hmk, ensureDest, hsrc]

theorem runScript_ok (f : Faults) (fs : FS) (entries : List Entry)
    (hmk : f.mkdirFails = false) (hmv : ∀ e ∈ entries, f.moveFails e.name = false)
    (hwr : f.writeFails = false) (hsrc : fs.src = some entries) :
    runScript f fs = ⟨⟨some [], some (setEntry (entries.foldl setEntry (fs.dest.getD []))
      ⟨"index.html".toList, indexContent (namesOf entries)⟩)⟩, none⟩ := by
  rw [runScript]
  simp only [hmk, Bool.false_eq_true, if_false, ensureDest, hsrc]
  rw [processEntries_ok f entries _ _ hmv]
  simp [hwr, indexWrite, indexContent, List.append_assoc]

theorem runScript_move_fail (f : Faults) (fs : FS) (pre : List Entry) (e : Entry)
    (post : List Entry) (hmk : f.mkdirFails = false) (hsrc : fs.src = some (pre ++ e :: post))
    (hpre : ∀ x ∈ pre, f.moveFails x.name = false) (he : f.moveFails e.name = true) :
    runScript f fs = ⟨⟨some (e :: post), some (pre.foldl setEntry (fs.dest.getD []))⟩,
      some (Err.moveFailed e.name)⟩ := by
  rw [runScript]
  simp only [hmk, Bool.false_eq_true, if_false, ensureDest, hsrc]
  rw [processEntries_fail f pre e post _ _ hpre he]
  rfl

theorem runScript_write_fail (f : Faults) (fs : FS) (entries : List Entry)
    (hmk : f.mkdirFails = false) (hmv : ∀ e ∈ entries, f.moveFails e.name = false)
    (hwr : f.writeFails = true) (hsrc : fs.src = some entries) :
    runScript f fs = ⟨⟨some [], some (entries.foldl setEntry (fs.dest.getD []))⟩,
      some Err.writeFailed⟩ := by
  rw [runScript]
  simp only [hmk, Bool.false_eq_true, if_false, ensureDest, hsrc]
  rw [processEntries_ok f entries _ _ hmv]
  simp [hwr]

theorem count_one_of_nodup : ∀ (l : List Chars) (x : Chars), l.Nodup → x ∈ l → l.count x = 1
  | [], _, _, h => by cases h
  | y :: l, x, hn, h => by
    rcases List.mem_cons.1 h with rfl | h'
    · rw [List.count_cons_self, List.count_eq_zero.2 (List.nodup_cons.1 hn).1]
    · have hxy : x ≠ y := by
        rintro rfl
        exact (List.nodup_cons.1 hn).1 h'
      rw [List.count_cons_of_ne hxy]
      exact count_one_of_nodup l x (List.nodup_cons.1 hn).2 h'

theorem catMap_append (f : Chars → Chars) (a b : List Chars) :
    catMap f (a ++ b) = catMap f a ++ catMap f b := by
  induction a with
  | nil => rfl
  | cons x a ih => simp [catMap, ih, List.append_assoc]

/-- Claim C1, counterexample: on a filesystem where neither the source nor the
destination directory exists, the fault-free run does fail with the
filesystem-not-found error, but the destination directory has been created by
then — the failure does not happen before creating the destination directory,
contrary to the claim. -/
theorem claim_C1_counterexample :
    (runScript noFaults ⟨none, none⟩).err = some Err.fileNotFound ∧
    (runScript noFaults ⟨none, none⟩).fs.dest ≠ none := by decide

/-- Claim C1 (amended): if the source directory does not exist, the run fails
with a filesystem-not-found error when enumerating the source, after the
destination directory has been created (if absent; an existing destination and
its contents are untouched); no entry is moved and no index.html is written. -/
theorem claim_C1_amended (f : Faults) (fs : FS) (hmk : f.mkdirFails = false)
    (hsrc : fs.src = none) :
    runScript f fs = ⟨⟨none, some (fs.dest.getD [])⟩, some Err.fileNotFound⟩ :=
  runScript_src_none f fs hmk hsrc

/-- Claim C1, witness for the amended theorem at a concrete input. -/
theorem claim_C1_witness :
    runScript noFaults ⟨none, some [⟨"z".toList, "c".toList⟩]⟩ =
      ⟨⟨none, some [⟨"z".toList, "c".toList⟩]⟩, some Err.fileNotFound⟩ :=
  claim_C1_amended noFaults ⟨none, some [⟨"z".toList, "c".toList⟩]⟩ rfl rfl

/-- Claim C2, counterexample: when the destination directory already contains
an entry (here `z`) from before the run, the destination after a successful run
does not contain exactly the source entries plus index.html — the stale entry
is still there. -/
theorem claim_C2_counterexample :
    (runScript noFaults ⟨some [⟨"a".toList, "x".toList⟩],
      some [⟨"z".toList, "c".toList⟩]⟩).err = none ∧
    "z".toList ∈ namesOf ((runScript noFaults ⟨some [⟨"a".toList, "x".toList⟩],
      some [⟨"z".toList, "c".toList⟩]⟩).fs.dest.getD []) ∧
    "z".toList ≠ "a".toList ∧ "z".toList ≠ "index.html".toList := by decide

/-- Claim C2 (amended): for every source directory with entries e1...en present
at invocation time, after a successful run the destination directory contains
exactly those entries by name, plus index.html, plus whatever entries the
destination already contained before the run; each entry not itself named
index.html is present under its original name with its original content (it was
moved, not copied), and the source directory contains none of e1...en. -/
theorem claim_C2_amended (f : Faults) (fs : FS) (entries : List Entry)
    (hmk : f.mkdirFails = false) (hmv : ∀ e ∈ entries, f.moveFails e.name = false)
    (hwr : f.writeFails = false) (hsrc : fs.src = some entries)
    (hnodup : (namesOf entries).Nodup) :
    (runScript f fs).err = none ∧
    (runScript f fs).fs.src = some [] ∧
    (∀ x, x ∈ namesOf ((runScript f fs).fs.dest.getD []) ↔
      (x ∈ namesOf (fs.dest.getD []) ∨ x ∈ namesOf entries ∨ x = "index.html".toList)) ∧
    (∀ e ∈ entries, e.name ≠ "index.html".toList →
      lookupE ((runScript f fs).fs.dest.getD []) e.name = some e.content) := by
  rw [runScript_ok f fs entries hmk hmv hwr hsrc]
  refine ⟨rfl, rfl, ?_, ?_⟩
  · intro x
    show x ∈ namesOf (setEntry (entries.foldl setEntry (fs.dest.getD []))
      ⟨"index.html".toList, indexContent (namesOf entries)⟩) ↔ _
    rw [namesOf_set, namesOf_foldl]
    simp [or_assoc]
  · intro e he hne
    show lookupE (setEntry (entries.foldl setEntry (fs.dest.getD []))
      ⟨"index.html".toList, indexContent (namesOf entries)⟩) e.name = some e.content
    rw [lookupE_set]
    rw [if_neg hne]
    exact lookupE_foldl_mem entries _ e hnodup he

/-- Claim C2, witness for the amended theorem at a concrete input. -/
theorem claim_C2_witness :
    (runScript noFaults ⟨some [⟨"a".toList, "x".toList⟩], none⟩).err = none ∧
    (runScript noFaults ⟨some [⟨"a".toList, "x".toList⟩], none⟩).fs.src = some [] ∧
    (∀ x, x ∈ namesOf ((runScript noFaults ⟨some [⟨"a".toList, "x".toList⟩],
        none⟩).fs.dest.getD []) ↔
      (x ∈ namesOf ((none : Option (List Entry)).getD []) ∨
        x ∈ namesOf [⟨"a".toList, "x".toList⟩] ∨ x = "index.html".toList)) ∧
    (∀ e ∈ [(⟨"a".toList, "x".toList⟩ : Entry)], e.name ≠ "index.html".toList →
      lookupE ((runScript noFaults ⟨some [⟨"a".toList, "x".toList⟩],
        none⟩).fs.dest.getD []) e.name = some e.content) :=
  claim_C2_amended noFaults ⟨some [⟨"a".toList, "x".toList⟩], none⟩
    [⟨"a".toList, "x".toList⟩] rfl (by decide) rfl rfl (by decide)

/-- Claim C4: the escaping step replaces each of the characters ampersand, less
than, greater than, double quote, and apostrophe with its HTML entity and
keeps every other character, before the name is inserted into the link; in
particular an entry named a&<b>.txt yields both href and link text equal to
a&amp;&lt;b&gt;.txt. -/
theorem claim_C4 :
    (∀ s : Chars, htmlEscape s = escL s) ∧
    escapeChar '&' = "&amp;".toList ∧
    escapeChar '<' = "&lt;".toList ∧
    escapeChar '>' = "&gt;".toList ∧
    escapeChar '"' = "&quot;".toList ∧
    escapeChar apos = "&#x27;".toList ∧
    (∀ c : Char, c ≠ '&' → c ≠ '<' → c ≠ '>' → c ≠ '"' → c ≠ apos → escapeChar c = [c]) ∧
    htmlEscape "a&<b>.txt".toList = "a&amp;&lt;b&gt;.txt".toList ∧
    itemOf "a&<b>.txt".toList =
      ("<li><a href=\"a&amp;&lt;b&gt;.txt\">a&amp;&lt;b&gt;.txt</a></li>\n").toList := by
  refine ⟨htmlEscape_eq, by decide, by decide, by decide, by decide, by decide, ?_,
    by decide, by decide⟩
  intro c h1 h2 h3 h4 h5
  simp [escapeChar, h1, h2, h3, h4, h5]

/-- Claim C4, witness: the general non-special-character clause applied at a
concrete character. -/
theorem claim_C4_witness : escapeChar 'a' = ['a'] :=
  claim_C4.2.2.2.2.2.2.1 'a' (by decide) (by decide) (by decide) (by decide) (by decide)

/-- Claim C6, counterexample: with an empty source directory but a destination
directory already holding an entry `z`, the run succeeds yet the destination
does not contain only index.html. -/
theorem claim_C6_counterexample :
    (runScript noFaults ⟨some [], some [⟨"z".toList, "c".toList⟩]⟩).err = none ∧
    "z".toList ∈ namesOf ((runScript noFaults ⟨some [],
      some [⟨"z".toList, "c".toList⟩]⟩).fs.dest.getD []) ∧
    "z".toList ≠ "index.html".toList := by decide

/-- Claim C6 (amended): given an empty source directory and an initially absent
or empty destination directory, the run succeeds and produces a destination
directory containing only index.html, whose body is the heading followed by an
empty unordered list with no list items. -/
theorem claim_C6_amended (f : Faults) (fs : FS) (hmk : f.mkdirFails = false)
    (hwr : f.writeFails = false) (hsrc : fs.src = some [])
    (hdest : fs.dest = none ∨ fs.dest = some []) :
    runScript f fs = ⟨⟨some [], some [⟨"index.html".toList,
      "<h1>Binary builds</h1>\n<ul>\n</ul>\n".toList⟩]⟩, none⟩ := by
  have h := runScript_ok f fs [] hmk (by simp) hwr hsrc
  rcases hdest with hd | hd <;>
    · rw [h, hd]
      decide

/-- Claim C6, witness for the amended theorem at a concrete input. -/
theorem claim_C6_witness :
    runScript noFaults ⟨some [], none⟩ = ⟨⟨some [], some [⟨"index.html".toList,
      "<h1>Binary builds</h1>\n<ul>\n</ul>\n".toList⟩]⟩, none⟩ :=
  claim_C6_amended noFaults ⟨some [], none⟩ rfl rfl rfl (Or.inl rfl)

/-- Claim C7: the ensure-destination step is idempotent — running it twice is
the same as running it once, and on a filesystem whose destination directory
already exists it returns normally and changes nothing at all (the embedded
`mkdir(parents=True, exist_ok=True)` is a total function, so no error is
raised). -/
theorem claim_C7 :
    (∀ fs : FS, ensureDest (ensureDest fs) = ensureDest fs) ∧
    (∀ (fs : FS) (d : List Entry), fs.dest = some d → ensureDest fs = fs) := by
  constructor
  · intro fs
    simp [ensureDest]
  · intro fs d hd
    cases fs with
    | mk s de => simp_all [ensureDest]

/-- Claim C7, witness: the no-change clause applied at a concrete filesystem
with an existing destination directory. -/
theorem claim_C7_witness :
    ensureDest ⟨none, some [⟨"z".toList, "c".toList⟩]⟩ =
      ⟨none, some [⟨"z".toList, "c".toList⟩]⟩ :=
  claim_C7.2 ⟨none, some [⟨"z".toList, "c".toList⟩]⟩ [⟨"z".toList, "c".toList⟩] rfl

/-- Claim C3: after a successful run, the written index document is the header,
the list items of the enumerated entries in enumeration order, and the footer;
it has exactly one opening list-item tag per entry and no others, and for each
entry exactly one occurrence of that entry's full list item
`<li><a href="X">X</a></li>` with X the HTML-escaped name. -/
theorem claim_C3 (f : Faults) (fs : FS) (entries : List Entry)
    (hmk : f.mkdirFails = false) (hmv : ∀ e ∈ entries, f.moveFails e.name = false)
    (hwr : f.writeFails = false) (hsrc : fs.src = some entries)
    (hnodup : (namesOf entries).Nodup) :
    lookupE ((runScript f fs).fs.dest.getD []) "index.html".toList =
      some (indexContent (namesOf entries)) ∧
    indexContent (namesOf entries) =
      indexHeader ++ catMap itemOf (namesOf entries) ++ indexFooter ∧
    countOccs liTag (indexContent (namesOf entries)) = entries.length ∧
    (∀ e ∈ entries, countOccs (itemOf e.name) (indexContent (namesOf entries)) = 1) := by
  refine ⟨?_, rfl, ?_, ?_⟩
  · rw [runScript_ok f fs entries hmk hmv hwr hsrc]
    show lookupE (setEntry (entries.foldl setEntry (fs.dest.getD []))
      ⟨"index.html".toList, indexContent (namesOf entries)⟩) "index.html".toList = _
    rw [lookupE_set]
    simp
  · rw [countOccs_content_li]
    simp [namesOf]
  · intro e he
    rw [countOccs_content_item]
    exact count_one_of_nodup (namesOf entries) e.name hnodup
      (List.mem_map_of_mem Entry.name he)

/-- Claim C3, witness at a concrete two-entry source directory. -/
theorem claim_C3_witness :
    lookupE ((runScript noFaults ⟨some [⟨"a".toList, "x".toList⟩, ⟨"b".toList, "y".toList⟩],
        none⟩).fs.dest.getD []) "index.html".toList =
      some (indexContent (namesOf [⟨"a".toList, "x".toList⟩, ⟨"b".toList, "y".toList⟩])) ∧
    indexContent (namesOf [⟨"a".toList, "x".toList⟩, ⟨"b".toList, "y".toList⟩]) =
      indexHeader ++ catMap itemOf (namesOf [⟨"a".toList, "x".toList⟩,
        ⟨"b".toList, "y".toList⟩]) ++ indexFooter ∧
    countOccs liTag (indexContent (namesOf [⟨"a".toList, "x".toList⟩,
      ⟨"b".toList, "y".toList⟩])) =
      [(⟨"a".toList, "x".toList⟩ : Entry), ⟨"b".toList, "y".toList⟩].length ∧
    (∀ e ∈ [(⟨"a".toList, "x".toList⟩ : Entry), ⟨"b".toList, "y".toList⟩],
      countOccs (itemOf e.name) (indexContent (namesOf [⟨"a".toList, "x".toList⟩,
        ⟨"b".toList, "y".toList⟩])) = 1) :=
  claim_C3 noFaults ⟨some [⟨"a".toList, "x".toList⟩, ⟨"b".toList, "y".toList⟩], none⟩
    [⟨"a".toList, "x".toList⟩, ⟨"b".toList, "y".toList⟩] rfl (by decide) rfl rfl (by decide)

/-- Claim C5: the emitted index.html is, byte for byte, the fixed heading, the
opening list tag, the accumulated list items in enumeration order, and the
closing list tag; it is written with encoding utf-8 under the name index.html
inside the destination directory, overwriting any prior entry of that name
(the initial destination contents are arbitrary here, so a pre-existing
index.html is overwritten); in every list item the escaped name is identical
in the href attribute and the link text. -/
theorem claim_C5 (f : Faults) (fs : FS) (entries : List Entry)
    (hmk : f.mkdirFails = false) (hmv : ∀ e ∈ entries, f.moveFails e.name = false)
    (hwr : f.writeFails = false) (hsrc : fs.src = some entries) :
    (runScript f fs).err = none ∧
    lookupE ((runScript f fs).fs.dest.getD []) "index.html".toList =
      some (indexContent (namesOf entries)) ∧
    indexContent (namesOf entries) =
      indexHeader ++ catMap itemOf (namesOf entries) ++ indexFooter ∧
    indexHeader = "<h1>Binary builds</h1>\n<ul>\n".toList ∧
    indexFooter = "</ul>\n".toList ∧
    (∀ n : Chars, itemOf n = "<li><a href=\"".toList ++ htmlEscape n ++ "\">".toList ++
      htmlEscape n ++ "</a></li>\n".toList) ∧
    (indexWrite (indexContent (namesOf entries))).fileName = "index.html".toList ∧
    (indexWrite (indexContent (namesOf entries))).encoding = "utf-8".toList := by
  refine ⟨?_, ?_, rfl, rfl, rfl, ?_, rfl, rfl⟩
  · rw [runScript_ok f fs entries hmk hmv hwr hsrc]
  · rw [runScript_ok f fs entries hmk hmv hwr hsrc]
    show lookupE (setEntry (entries.foldl setEntry (fs.dest.getD []))
      ⟨"index.html".toList, indexContent (namesOf entries)⟩) "index.html".toList = _
    rw [lookupE_set]
    simp
  · intro n
    rw [itemOf]
    rfl

/-- Claim C5, witness at a concrete one-entry source directory with a stale
index.html already in the destination (checking the overwrite). -/
theorem claim_C5_witness :
    (runScript noFaults ⟨some [⟨"a".toList, "x".toList⟩],
      some [⟨"index.html".toList, "OLD".toList⟩]⟩).err = none ∧
    lookupE ((runScript noFaults ⟨some [⟨"a".toList, "x".toList⟩],
        some [⟨"index.html".toList, "OLD".toList⟩]⟩).fs.dest.getD []) "index.html".toList =
      some (indexContent (namesOf [⟨"a".toList, "x".toList⟩])) ∧
    indexContent (namesOf [⟨"a".toList, "x".toList⟩]) =
      indexHeader ++ catMap itemOf (namesOf [⟨"a".toList, "x".toList⟩]) ++ indexFooter ∧
    indexHeader = "<h1>Binary builds</h1>\n<ul>\n".toList ∧
    indexFooter = "</ul>\n".toList ∧
    (∀ n : Chars, itemOf n = "<li><a href=\"".toList ++ htmlEscape n ++ "\">".toList ++
      htmlEscape n ++ "</a></li>\n".toList) ∧
    (indexWrite (indexContent (namesOf [⟨"a".toList, "x".toList⟩]))).fileName =
      "index.html".toList ∧
    (indexWrite (indexContent (namesOf [⟨"a".toList, "x".toList⟩]))).encoding =
      "utf-8".toList :=
  claim_C5 noFaults ⟨some [⟨"a".toList, "x".toList⟩],
    some [⟨"index.html".toList, "OLD".toList⟩]⟩ [⟨"a".toList, "x".toList⟩]
    rfl (by decide) rfl rfl

/-- Claim C8: no error is caught or recovered anywhere — whichever filesystem
operation fails first (directory creation, an individual move, or the final
write) terminates the whole run with that error reported, and the final state
keeps every entry relocated before the failure relocated, with no rollback, no
retry, and nothing moved after the failure. -/
theorem claim_C8 (f : Faults) (fs : FS) (entries : List Entry)
    (hsrc : fs.src = some entries) :
    (f.mkdirFails = true → runScript f fs = ⟨fs, some Err.mkdirFailed⟩) ∧
    (∀ pre e post, f.mkdirFails = false → entries = pre ++ e :: post →
      (∀ x ∈ pre, f.moveFails x.name = false) → f.moveFails e.name = true →
      runScript f fs = ⟨⟨some (e :: post), some (pre.foldl setEntry (fs.dest.getD []))⟩,
        some (Err.moveFailed e.name)⟩) ∧
    (f.mkdirFails = false → (∀ x ∈ entries, f.moveFails x.name = false) →
      f.writeFails = true →
      runScript f fs = ⟨⟨some [], some (entries.foldl setEntry (fs.dest.getD []))⟩,
        some Err.writeFailed⟩) := by
  refine ⟨fun hmk => runScript_mkdir_fail f fs hmk, ?_, ?_⟩
  · intro pre e post hmk hsplit hpre he
    exact runScript_move_fail f fs pre e post hmk (by rw [hsrc, hsplit]) hpre he
  · intro hmk hmv hwr
    exact runScript_write_fail f fs entries hmk hmv hwr hsrc

/-- Claim C8, witness: the move-failure clause applied at a concrete run where
the second of two entries fails to move — the first stays relocated, the run
dies with the move error, nothing is written. -/
theorem claim_C8_witness :
    runScript failB ⟨some [⟨"a".toList, "x".toList⟩, ⟨"b".toList, "y".toList⟩], some []⟩ =
      ⟨⟨some [⟨"b".toList, "y".toList⟩], some [⟨"a".toList, "x".toList⟩]⟩,
        some (Err.moveFailed "b".toList)⟩ := by
  have h := (claim_C8 failB
    ⟨some [⟨"a".toList, "x".toList⟩, ⟨"b".toList, "y".toList⟩], some []⟩
    [⟨"a".toList, "x".toList⟩, ⟨"b".toList, "y".toList⟩] rfl).2.1
    [⟨"a".toList, "x".toList⟩] ⟨"b".toList, "y".toList⟩ [] rfl rfl (by decide) (by decide)
  simpa using h

/-- Claim C9: when the source directory contains an entry named index.html,
that entry is first relocated into the destination (after the loop, and before
the final write, the destination's index.html holds the entry's original
content), and the final write then overwrites it with the generated index
document, in which the entry is still listed as a link. -/
theorem claim_C9 (f : Faults) (fs : FS) (entries : List Entry) (c : Chars)
    (hmk : f.mkdirFails = false) (hmv : ∀ e ∈ entries, f.moveFails e.name = false)
    (hwr : f.writeFails = false) (hsrc : fs.src = some entries)
    (hnodup : (namesOf entries).Nodup)
    (hmem : (⟨"index.html".toList, c⟩ : Entry) ∈ entries) :
    (runScript f fs).err = none ∧
    lookupE (entries.foldl setEntry (fs.dest.getD [])) "index.html".toList = some c ∧
    lookupE ((runScript f fs).fs.dest.getD []) "index.html".toList =
      some (indexContent (namesOf entries)) ∧
    (∃ p q, indexContent (namesOf entries) = p ++ itemOf "index.html".toList ++ q) := by
  refine ⟨?_, ?_, ?_, ?_⟩
  · rw [runScript_ok f fs entries hmk hmv hwr hsrc]
  · have h := lookupE_foldl_mem entries (fs.dest.getD []) ⟨"index.html".toList, c⟩ hnodup hmem
    simpa using h
  · rw [runScript_ok f fs entries hmk hmv hwr hsrc]
    show lookupE (setEntry (entries.foldl setEntry (fs.dest.getD []))
      ⟨"index.html".toList, indexContent (namesOf entries)⟩) "index.html".toList = _
    rw [lookupE_set]
    simp
  · have hm : "index.html".toList ∈ namesOf entries := by
      have := List.mem_map_of_mem Entry.name hmem
      simpa [namesOf] using this
    obtain ⟨s, t, hst⟩ := List.append_of_mem hm
    refine ⟨indexHeader ++ catMap itemOf s, catMap itemOf t ++ indexFooter, ?_⟩
    rw [indexContent, hst, catMap_append]
    simp [catMap, List.append_assoc]

/-- Claim C9, witness at a concrete source directory whose only entry is named
index.html. -/
theorem claim_C9_witness :
    (runScript noFaults ⟨some [⟨"index.html".toList, "old".toList⟩], none⟩).err = none ∧
    lookupE ([(⟨"index.html".toList, "old".toList⟩ : Entry)].foldl setEntry
      ((none : Option (List Entry)).getD [])) "index.html".toList = some "old".toList ∧
    lookupE ((runScript noFaults ⟨some [⟨"index.html".toList, "old".toList⟩],
        none⟩).fs.dest.getD []) "index.html".toList =
      some (indexContent (namesOf [⟨"index.html".toList, "old".toList⟩])) ∧
    (∃ p q, indexContent (namesOf [⟨"index.html".toList, "old".toList⟩]) =
      p ++ itemOf "index.html".toList ++ q) :=
  claim_C9 noFaults ⟨some [⟨"index.html".toList, "old".toList⟩], none⟩
    [⟨"index.html".toList, "old".toList⟩] "old".toList
    rfl (by decide) rfl rfl (by decide) (by decide)

/-- Claim C10, counterexample: the source holds an entry named index.html and a
second entry `b` whose move fails; the run aborts before the write step, yet
the pre-existing index.html of the destination is not left unchanged — the
relocation of the source's index.html already replaced it. -/
theorem claim_C10_counterexample :
    (runScript failB ⟨some [⟨"index.html".toList, "NEW".toList⟩, ⟨"b".toList, "y".toList⟩],
      some [⟨"index.html".toList, "OLD".toList⟩]⟩).err =
      some (Err.moveFailed "b".toList) ∧
    lookupE ((runScript failB ⟨some [⟨"index.html".toList, "NEW".toList⟩,
      ⟨"b".toList, "y".toList⟩], some [⟨"index.html".toList, "OLD".toList⟩]⟩).fs.dest.getD [])
      "index.html".toList ≠ some "OLD".toList := by decide

/-- Claim C10 (amended): the index file is written only after every relocation
has completed — if a per-entry move fails, the run aborts with that error
before the write step, the destination holds exactly the entries relocated
before the failure, and a pre-existing index.html is left unchanged unless an
entry named index.html was itself relocated before the failure. -/
theorem claim_C10_amended (f : Faults) (fs : FS) (pre : List Entry) (e : Entry)
    (post : List Entry) (hmk : f.mkdirFails = false)
    (hsrc : fs.src = some (pre ++ e :: post))
    (hpre : ∀ x ∈ pre, f.moveFails x.name = false) (he : f.moveFails e.name = true) :
    (runScript f fs).err = some (Err.moveFailed e.name) ∧
    (runScript f fs).fs.dest = some (pre.foldl setEntry (fs.dest.getD [])) ∧
    ("index.html".toList ∉ namesOf pre →
      lookupE ((runScript f fs).fs.dest.getD []) "index.html".toList =
        lookupE (fs.dest.getD []) "index.html".toList) := by
  rw [runScript_move_fail f fs pre e post hmk hsrc hpre he]
  refine ⟨rfl, rfl, ?_⟩
  intro hnm
  show lookupE (pre.foldl setEntry (fs.dest.getD [])) "index.html".toList = _
  apply lookupE_foldl_not_mem
  intro x hx h
  exact hnm (by rw [← h]; exact List.mem_map_of_mem Entry.name hx)

/-- Claim C10, witness for the amended theorem: one entry moves, then the move
of `b` fails; nothing is written and the stale index.html survives. -/
theorem claim_C10_witness :
    (runScript failB ⟨some [⟨"a".toList, "x".toList⟩, ⟨"b".toList, "y".toList⟩],
      some [⟨"index.html".toList, "OLD".toList⟩]⟩).err =
      some (Err.moveFailed "b".toList) ∧
    (runScript failB ⟨some [⟨"a".toList, "x".toList⟩, ⟨"b".toList, "y".toList⟩],
      some [⟨"index.html".toList, "OLD".toList⟩]⟩).fs.dest =
      some ([(⟨"a".toList, "x".toList⟩ : Entry)].foldl setEntry
        ((some [(⟨"index.html".toList, "OLD".toList⟩ : Entry)]).getD [])) ∧
    ("index.html".toList ∉ namesOf [(⟨"a".toList, "x".toList⟩ : Entry)] →
      lookupE ((runScript failB ⟨some [⟨"a".toList, "x".toList⟩, ⟨"b".toList, "y".toList⟩],
        some [⟨"index.html".toList, "OLD".toList⟩]⟩).fs.dest.getD [])
        "index.html".toList =
      lookupE ((some [(⟨"index.html".toList, "OLD".toList⟩ : Entry)]).getD [])
        "index.html".toList) :=
  claim_C10_amended failB ⟨some [⟨"a".toList, "x".toList⟩, ⟨"b".toList, "y".toList⟩],
    some [⟨"index.html".toList, "OLD".toList⟩]⟩ [⟨"a".toList, "x".toList⟩]
    ⟨"b".toList, "y".toList⟩ [] rfl rfl (by decide) (by decide)

end MakeDocs
